import Mathlib

/-!
# pacman (package `pacm`): version model, archive resolver, archive filter

A shallow embedding of the pure logic of `pacm/update.go` and `pacm/create..go`.

* A Go `string` is embedded as a `List Char`.  Every string operation used by the
  program (splitting on a one-character separator, prefix and suffix tests, parsing
  ASCII digits) acts the same way on the characters of a well-formed UTF-8 string as
  on its bytes.  `filepath.Match` steps through a name byte by byte, so it is embedded
  on the UTF-8 bytes of the pattern and of the name.
* A Go `int` is embedded as an `Int`; the only place where its width matters is
  `strconv.Atoi`, which reports a range error outside `[-2^(intSize-1), 2^(intSize-1))`.
* A Go `error` result is embedded as an `Option Error` (`none` is `nil`).
* Calls that leave the process (ssh, scp, the file system) are embedded as explicit
  inputs carrying the outcome of the call.
-/

namespace Pacm

/-! ## Go values -/

/-- A Go string, as its sequence of characters. -/
abbrev GoString := List Char

/-- Go error values that the embedded code creates or passes on. -/
inductive Error where
  /-- The error `strconv.ErrSyntax` (inside a `*NumError`). -/
  | ErrSyntax : Error
  /-- The error `strconv.ErrRange` (inside a `*NumError`). -/
  | ErrRange : Error
  /-- The error `filepath.ErrBadPattern`. -/
  | ErrBadPattern : Error
  /-- An error handed back by an external call (ssh, scp, os), identified by a tag. -/
  | external : Nat → Error
  /-- The value of `fmt.Errorf(format)` for a format without `%w`. -/
  | errorf : String → Error
  /-- The value of `fmt.Errorf(format, ..., err)` for a format ending in `%w`. -/
  | wrap : String → Error → Error
deriving DecidableEq, Repr

/-- The width of Go's `int` on the platforms the program is built for. -/
def intSize : Nat := 64

/-! ## Package `strings` -/

/-- Go `strings.HasPrefix`. -/
def HasPrefix (s pre : GoString) : Bool := pre.isPrefixOf s

/-- Go `strings.HasSuffix`. -/
def HasSuffix (s suf : GoString) : Bool := suf.isSuffixOf s

/-- Go `strings.TrimPrefix`: `s` without the leading `pre`, or `s` itself. -/
def TrimPrefix (s pre : GoString) : GoString :=
  if HasPrefix s pre then s.drop pre.length else s

/-- Go `strings.TrimSuffix`: `s` without the trailing `suf`, or `s` itself. -/
def TrimSuffix (s suf : GoString) : GoString :=
  if HasSuffix s suf then s.take (s.length - suf.length) else s

/-- Go `strings.Split(s, sep)` for a separator of one character: the pieces of `s`
between the occurrences of `sep`; always at least one piece (`Split "" sep = [""]`). -/
def Split (s : GoString) (sep : Char) : List GoString :=
  match s with
  | [] => [[]]
  | c :: cs =>
    if c = sep then [] :: Split cs sep
    else
      match Split cs sep with
      | [] => [[c]]
      | piece :: pieces => (c :: piece) :: pieces

/-- Go `unicode.IsSpace`. -/
def isSpace (c : Char) : Bool :=
  let n := c.toNat
  (9 ≤ n && n ≤ 13) || n = 32 || n = 0x85 || n = 0xA0 || n = 0x1680 ||
  (0x2000 ≤ n && n ≤ 0x200A) || n = 0x2028 || n = 0x2029 || n = 0x202F ||
  n = 0x205F || n = 0x3000

/-- Go `strings.TrimSpace`: drop leading and trailing white space. -/
def TrimSpace (s : GoString) : GoString :=
  ((s.dropWhile isSpace).reverse.dropWhile isSpace).reverse

/-! ## Package `strconv` -/

/-- The value of an ASCII decimal digit, `none` for any other character. -/
def digitValue (c : Char) : Option Nat :=
  if c.isDigit then some (c.toNat - 48) else none

/-- The digit loop of `strconv.ParseUint` in base 10, without a width limit:
`n = n*10 + digit` for each character, `none` at the first non-digit. -/
def parseDigits : List Char → Nat → Option Nat
  | [], n => some n
  | c :: cs, n =>
    match digitValue c with
    | none => none
    | some d => parseDigits cs (n * 10 + d)

/-- The sign handling of `strconv.ParseInt`: whether the string starts with `-`, and the
string without a leading `+` or `-`. -/
def splitSign : GoString → Bool × GoString
  | '+' :: rest => (false, rest)
  | '-' :: rest => (true, rest)
  | s => (false, s)

/-- Go `strconv.Atoi`: an optional sign followed by at least one decimal digit.
Anything else is a syntax error with value 0; a value outside the range of `int`
is a range error with the nearest representable value. -/
def Atoi (s : GoString) : Int × Option Error :=
  let neg := (splitSign s).1
  let digits := (splitSign s).2
  if digits = [] then (0, some Error.ErrSyntax)
  else
    match parseDigits digits 0 with
    | none => (0, some Error.ErrSyntax)
    | some un =>
      let cutoff : Nat := 2 ^ (intSize - 1)
      if !neg && un ≥ cutoff then ((cutoff : Int) - 1, some Error.ErrRange)
      else if neg && un > cutoff then (-(cutoff : Int), some Error.ErrRange)
      else if neg then (-(un : Int), none)
      else ((un : Int), none)

/-! ## `pacm/update.go`: the version model -/

/-- The value `p1` (or `p2`) of one iteration of the loop of `compareVersions`:
zero unless `i` is in range and the part is non-empty and `Atoi` accepts it. -/
def component (parts : List GoString) (i : Nat) : Int :=
  match parts.get? i with
  | none => 0
  | some part =>
    if part ≠ [] then
      match Atoi part with
      | (p, none) => p
      | (_, some _) => 0
    else 0

/-- The loop `for i := i; i < maxLen; i++` of `compareVersions`, with
`remaining = maxLen - i` iterations left. -/
def compareLoop (v1Parts v2Parts : List GoString) (i : Nat) : Nat → Int
  | 0 => 0
  | remaining + 1 =>
    if component v1Parts i < component v2Parts i then -1
    else if component v1Parts i > component v2Parts i then 1
    else compareLoop v1Parts v2Parts (i + 1) remaining

/-- The function `compareVersions` of `update.go`. -/
def compareVersions (v1 v2 : GoString) : Int :=
  let v1Parts := Split v1 '.'
  let v2Parts := Split v2 '.'
  let maxLen := if v2Parts.length > v1Parts.length then v2Parts.length else v1Parts.length
  compareLoop v1Parts v2Parts 0 maxLen

/-- The function `checkVersion` of `update.go`. -/
def checkVersion (requiredVer actualVer : GoString) : Bool :=
  if requiredVer = [] then true
  else if !HasPrefix requiredVer ">".toList && !HasPrefix requiredVer "<".toList then
    requiredVer == actualVer
  else
    let sel : GoString × GoString :=
      if HasPrefix requiredVer ">=".toList then (">=".toList, TrimPrefix requiredVer ">=".toList)
      else if HasPrefix requiredVer "<=".toList then
        ("<=".toList, TrimPrefix requiredVer "<=".toList)
      else if HasPrefix requiredVer ">".toList then
        (">".toList, TrimPrefix requiredVer ">".toList)
      else if HasPrefix requiredVer "<".toList then
        ("<".toList, TrimPrefix requiredVer "<".toList)
      else ([], requiredVer)
    let op := sel.1
    let verStr := sel.2
    if op = ">=".toList then decide (compareVersions actualVer verStr ≥ 0)
    else if op = "<=".toList then decide (compareVersions actualVer verStr ≤ 0)
    else if op = ">".toList then decide (compareVersions actualVer verStr > 0)
    else if op = "<".toList then decide (compareVersions actualVer verStr < 0)
    else false

/-! ## Package `path/filepath` and `slices` -/

/-- Go `filepath.Base` (Unix): the last element of `path`, after removing trailing
slashes; `"."` for the empty path and `"/"` for a path of slashes only. -/
def Base (path : GoString) : GoString :=
  if path = [] then ".".toList
  else
    let stripped := (path.reverse.dropWhile (fun c => c = '/')).reverse
    let last := (stripped.reverse.takeWhile (fun c => c ≠ '/')).reverse
    if last = [] then "/".toList else last

/-- The inner loop of the library's `insertionSortCmpFunc`,
`for j := i; j > a && cmp(data[j], data[j-1]) < 0; j-- { swap }`: the element `x`
moves left past every element it is strictly smaller than.  The elements before `x`
are given from right to left, and so is the result. -/
def insertLeft {α : Type} (cmp : α → α → Int) (x : α) : List α → List α
  | [] => [x]
  | y :: before => if cmp x y < 0 then y :: insertLeft cmp x before else x :: y :: before

/-- The library's `insertionSortCmpFunc` on a whole slice,
`for i := a + 1; i < b; i++ { for j := i; j > a && cmp(data[j], data[j-1]) < 0; j-- ... }`:
each element in turn moves left into the part already sorted (elements that compare
equal keep their order). -/
def insertionSortCmpFunc {α : Type} (data : List α) (cmp : α → α → Int) : List α :=
  (data.foldl (fun sortedRev x => insertLeft cmp x sortedRev) []).reverse

/-- Go `slices.SortFunc(x, cmp)`, that is `pdqsortCmpFunc(x, 0, n, bits.Len(uint(n)), cmp)`:
a slice of at most `maxInsertion = 12` elements is sorted by `insertionSortCmpFunc`.  A
longer slice goes through the library's pattern-defeating quicksort, which is not
embedded: `pdqsort x cmp` stands for the slice it leaves, and the theorems assume of it
only what the library promises, an ascending rearrangement of `x`. -/
def SortFunc {α : Type} (pdqsort : List α → (α → α → Int) → List α) (x : List α)
    (cmp : α → α → Int) : List α :=
  if x.length ≤ 12 then insertionSortCmpFunc x cmp else pdqsort x cmp

/-! ## `pacm/update.go`: the archive resolver -/

/-- The function `getVersionFromArchiveName` of `update.go`. -/
def getVersionFromArchiveName (archiveName packName : GoString) : GoString × Option Error :=
  let archiveName := Base archiveName
  let version := TrimPrefix archiveName (packName ++ "-".toList)
  let version := TrimSuffix version ".tar.gz".toList
  if version = [] then ([], some (Error.errorf "archive name %s does not contain version"))
  else (version, none)

/-- The comparison function that `getArchiveName` passes to `slices.SortFunc`. -/
def archiveCmp (packName a b : GoString) : Int :=
  compareVersions (getVersionFromArchiveName a packName).1 (getVersionFromArchiveName b packName).1

/-- The loop `for _, arch := range archNamesSlice` of `getArchiveName`, as a function of
the names still to visit and the current values of `archName` and `found`; its value is
`archName` when the loop is left. -/
def scanLoop (packName ver : GoString) : List GoString → GoString → Bool → GoString
  | [], archName, _ => archName
  | arch :: rest, archName, found =>
    let arch := Base arch
    match getVersionFromArchiveName arch packName with
    | (_, some _) => scanLoop packName ver rest [] found
    | (actualVer, none) =>
      if checkVersion ver actualVer then scanLoop packName ver rest arch true
      else if found then archName
      else scanLoop packName ver rest archName found

/-- The function `getArchiveName` of `update.go`.  The two remote calls are inputs:
`newSession` is the error of `sshClient.NewSession()` and `combinedOutput` the result
of `session.CombinedOutput(cmd)`; `pdqsort` is the library's sort of slices longer than
12 (see `SortFunc`).  The `err` assigned inside the loop is a variable of the loop body,
so the named result `err` is still `nil` when the loop is left. -/
def getArchiveName (pdqsort : List GoString → (GoString → GoString → Int) → List GoString)
    (newSession : Option Error) (combinedOutput : GoString × Option Error)
    (packName ver : GoString) : GoString × Option Error :=
  match newSession with
  | some err => ([], some err)
  | none =>
    match combinedOutput.2 with
    | some err => ([], some err)
    | none =>
      let archNames := TrimSpace combinedOutput.1
      if archNames = [] then
        ([], some (Error.errorf "no archive found for package %s version %s"))
      else
        let archNamesSlice := SortFunc pdqsort (Split archNames '\n') (archiveCmp packName)
        (scanLoop packName ver archNamesSlice [] false, none)

/-! ## Package `unicode/utf8` -/

/-- The bytes that a Go string holds for one character: its UTF-8 encoding. -/
def utf8Bytes (c : Char) : List Nat :=
  let n := c.toNat
  if n < 0x80 then [n]
  else if n < 0x800 then [0xC0 + n / 0x40, 0x80 + n % 0x40]
  else if n < 0x10000 then [0xE0 + n / 0x1000, 0x80 + n / 0x40 % 0x40, 0x80 + n % 0x40]
  else
    [0xF0 + n / 0x40000, 0x80 + n / 0x1000 % 0x40, 0x80 + n / 0x40 % 0x40, 0x80 + n % 0x40]

/-- The bytes of a Go string. -/
def toBytes (s : GoString) : List Nat := (s.map utf8Bytes).flatten

/-- Go `utf8.RuneError`. -/
def RuneError : Nat := 0xFFFD

/-- Go `utf8.DecodeRuneInString`: the first rune of the bytes `s` and its width in
bytes; `(RuneError, 0)` for no bytes and `(RuneError, 1)` for an encoding that is not
valid. -/
def DecodeRuneInString (s : List Nat) : Nat × Nat :=
  match s with
  | [] => (RuneError, 0)
  | s0 :: rest =>
    if s0 < 0x80 then (s0, 1)
    else if s0 < 0xC2 || 0xF4 < s0 then (RuneError, 1)
    else
      let sz := if s0 < 0xE0 then 2 else if s0 < 0xF0 then 3 else 4
      let lo := if s0 = 0xE0 then 0xA0 else if s0 = 0xF0 then 0x90 else 0x80
      let hi := if s0 = 0xED then 0x9F else if s0 = 0xF4 then 0x8F else 0xBF
      if s.length < sz then (RuneError, 1)
      else
        let s1 := rest.getD 0 0
        let s2 := rest.getD 1 0
        let s3 := rest.getD 2 0
        if s1 < lo || hi < s1 then (RuneError, 1)
        else if sz ≤ 2 then (s0 % 0x20 * 0x40 + s1 % 0x40, 2)
        else if s2 < 0x80 || 0xBF < s2 then (RuneError, 1)
        else if sz ≤ 3 then (s0 % 0x10 * 0x1000 + s1 % 0x40 * 0x40 + s2 % 0x40, 3)
        else if s3 < 0x80 || 0xBF < s3 then (RuneError, 1)
        else (s0 % 0x08 * 0x40000 + s1 % 0x40 * 0x1000 + s2 % 0x40 * 0x40 + s3 % 0x40, 4)

/-! ## Package `path/filepath`: `Match` (Unix)

The library works on the bytes of the pattern and of the name, and so does the
embedding: `*` is 42, `-` is 45, `/` is 47, `?` is 63, `[` is 91, `\` is 92, `]` is 93
and `^` is 94. -/

/-- The loop `Scan` of the library's `scanChunk`, after the leading stars are removed:
the pattern is cut before the first `*` that is outside a character class; a backslash
protects the next byte. -/
def scanSplit : Bool → List Nat → List Nat × List Nat
  | _, [] => ([], [])
  | inrange, c :: rest =>
    if c = 92 then
      match rest with
      | [] => ([c], [])
      | e :: rest2 => (c :: e :: (scanSplit inrange rest2).1, (scanSplit inrange rest2).2)
    else if c = 91 then (c :: (scanSplit true rest).1, (scanSplit true rest).2)
    else if c = 93 then (c :: (scanSplit false rest).1, (scanSplit false rest).2)
    else if c = 42 && !inrange then ([], c :: rest)
    else (c :: (scanSplit inrange rest).1, (scanSplit inrange rest).2)

/-- The library's `scanChunk`: whether the pattern starts with stars, the chunk after
them up to the next star, and the rest of the pattern. -/
def scanChunk (pattern : List Nat) : Bool × List Nat × List Nat :=
  let star := pattern.head? = some 42
  let pattern := pattern.dropWhile (fun c => c = 42)
  (star, (scanSplit false pattern).1, (scanSplit false pattern).2)

/-- The library's `getEsc`: one possibly escaped rune of a character class and the rest
of the chunk; `none` is `ErrBadPattern`. -/
def getEsc (chunk : List Nat) : Option (Nat × List Nat) :=
  match chunk with
  | [] => none
  | c :: rest =>
    if c = 45 || c = 93 then none
    else
      let chunk := if c = 92 then rest else chunk
      if chunk = [] then none
      else
        let r := (DecodeRuneInString chunk).1
        let n := (DecodeRuneInString chunk).2
        if r = RuneError && n = 1 then none
        else if chunk.drop n = [] then none
        else some (r, chunk.drop n)

/-- The loop `for { ... }` of `matchChunk` that reads the ranges of a character class up
to the closing bracket; `r` is the rune of the name under test.  The value is whether a
range contained `r`, and the chunk after the bracket; `none` is `ErrBadPattern`.  Each
turn reads at least one byte of the chunk, so `chunk.length + 1` turns are enough. -/
def classLoop (r : Nat) : Nat → List Nat → Bool → Nat → Option (Bool × List Nat)
  | 0, _, _, _ => none
  | turns + 1, chunk, matched, nrange =>
    if chunk.head? = some 93 && nrange > 0 then some (matched, chunk.tail)
    else
      match getEsc chunk with
      | none => none
      | some (lo, chunk1) =>
        if chunk1.head? = some 45 then
          match getEsc chunk1.tail with
          | none => none
          | some (hi, chunk2) =>
            classLoop r turns chunk2 (matched || (lo ≤ r && r ≤ hi)) (nrange + 1)
        else classLoop r turns chunk1 (matched || (lo ≤ r && r ≤ lo)) (nrange + 1)

/-- The loop `for len(chunk) > 0` of the library's `matchChunk`, with the current
`chunk`, the unread name `s` and the flag `failed`.  The value is `(rest, ok, err)`.
Each turn reads at least one byte of the chunk, so `chunk.length + 1` turns are
enough. -/
def matchChunkLoop : Nat → List Nat → List Nat → Bool → List Nat × Bool × Option Error
  | 0, _, _, _ => ([], false, some Error.ErrBadPattern)
  | turns + 1, chunk, s, failed =>
    match chunk with
    | [] => if failed then ([], false, none) else (s, true, none)
    | c :: chunk1 =>
      let failed := failed || s.isEmpty
      if c = 91 then
        let r := if failed then 0 else (DecodeRuneInString s).1
        let s := if failed then s else s.drop (DecodeRuneInString s).2
        let negated := chunk1.head? = some 94
        let chunk2 := if negated then chunk1.tail else chunk1
        match classLoop r (chunk2.length + 1) chunk2 false 0 with
        | none => ([], false, some Error.ErrBadPattern)
        | some (matched, chunk3) =>
          matchChunkLoop turns chunk3 s (failed || (matched == negated))
      else if c = 63 then
        matchChunkLoop turns chunk1 (if failed then s else s.drop (DecodeRuneInString s).2)
          (failed || s.head? = some 47)
      else
        let literal := if c = 92 then chunk1 else chunk
        match literal with
        | [] => ([], false, some Error.ErrBadPattern)
        | l :: chunk2 =>
          matchChunkLoop turns chunk2 (if failed then s else s.tail)
            (failed || s.head? ≠ some l)

/-- The library's `matchChunk`: match `chunk` (a pattern without stars) at the start of
`s`; the value is `(rest, ok, err)`. -/
def matchChunk (chunk s : List Nat) : List Nat × Bool × Option Error :=
  matchChunkLoop (chunk.length + 1) chunk s false

/-- The loop `for i := 0; i < len(name) && name[i] != Separator; i++` of `Match`, which
tries the chunk at `name[i+1:]`, one byte further each turn.  `some (t, none)` is
`name = t; continue Pattern`, `some (_, some err)` is `return false, err`, and `none`
is the end of the loop. -/
def starLoop (chunk : List Nat) (lastChunk : Bool) :
    List Nat → Option (List Nat × Option Error)
  | [] => none
  | c :: name1 =>
    if c = 47 then none
    else
      let res := matchChunk chunk name1
      if res.2.1 then
        if lastChunk && res.1 ≠ [] then starLoop chunk lastChunk name1
        else some (res.1, none)
      else if res.2.2 ≠ none then some ([], res.2.2)
      else starLoop chunk lastChunk name1

/-- The loop `Pattern: for len(pattern) > 0` of `Match`.  Each turn reads at least one
byte of the pattern, so `pattern.length + 1` turns are enough. -/
def matchLoop : Nat → List Nat → List Nat → Bool × Option Error
  | 0, _, _ => (false, some Error.ErrBadPattern)
  | turns + 1, pattern, name =>
    if pattern = [] then (name = [], none)
    else
      let star := (scanChunk pattern).1
      let chunk := (scanChunk pattern).2.1
      let rest := (scanChunk pattern).2.2
      if star && chunk = [] then (!name.contains 47, none)
      else
        let res := matchChunk chunk name
        if res.2.1 && (res.1 = [] || rest ≠ []) then matchLoop turns rest res.1
        else if res.2.2 ≠ none then (false, res.2.2)
        else
          match (if star then starLoop chunk (rest = []) name else none) with
          | some (t, none) => matchLoop turns rest t
          | some (_, some err) => (false, some err)
          | none => (false, none)

/-- Go `filepath.Match(pattern, name)` on Unix, as `(matched, err)`; the only error is
`ErrBadPattern`. -/
def Match (pattern name : GoString) : Bool × Option Error :=
  matchLoop ((toBytes pattern).length + 1) (toBytes pattern) (toBytes name)

/-! ## `pacm/create..go`: the archive builder's file filter -/

/-- The type `Target` of `main.go`. -/
structure Target where
  /-- The field `Path`: directory to walk, and inclusion glob as its last element. -/
  Path : GoString
  /-- The field `Exclude`: exclude globs, separated by commas. -/
  Exclude : GoString
deriving DecidableEq, Repr

/-- How the function that `getArch` hands to `filepath.Walk` leaves, for one visited
path. -/
inductive WalkStep where
  /-- A `return err` or `return nil` that leaves the archive untouched. -/
  | done : Option Error → WalkStep
  /-- The last line, `return addFileToTar(tw, filePath, info)`. -/
  | addFileToTar : WalkStep
deriving DecidableEq, Repr

/-- The loop `for _, exclude := range strings.Split(target.Exclude, ",")` of the walk
function: `some r` when the loop leaves the walk function with `return r`, `none` when
the loop ends. -/
def excludeLoop (baseName : GoString) : List GoString → Option (Option Error)
  | [] => none
  | exclude :: rest =>
    if (Match exclude baseName).1 then some none
    else
      match (Match exclude baseName).2 with
      | some err => some (some (Error.wrap "error match exclude: %w" err))
      | none => excludeLoop baseName rest

/-- The function literal that `getArch` passes to `filepath.Walk(root, ...)` for one
target: `filePath`, `info.IsDir()` and `err` are what the walk passes in. -/
def walkFn (target : Target) (filePath : GoString) (isDir : Bool) (err : Option Error) :
    WalkStep :=
  let mask := Base target.Path
  match err with
  | some e => WalkStep.done (some e)
  | none =>
    if isDir then WalkStep.done none
    else
      match excludeLoop (Base filePath) (Split target.Exclude ',') with
      | some r => WalkStep.done r
      | none =>
        if !(Match mask (Base filePath)).1 then WalkStep.done none
        else
          match (Match mask (Base filePath)).2 with
          | some e => WalkStep.done (some (Error.wrap "error match exclude: %w" e))
          | none => WalkStep.addFileToTar

/-- The value that `getArch` gives to `archiveName`,
`fmt.Sprintf("%s-%s.tar.gz", config.Name, config.Ver)`. -/
def archiveNameOf (name ver : GoString) : GoString :=
  name ++ "-".toList ++ ver ++ ".tar.gz".toList

/-! ## `pacm/create..go`: publishing -/

/-- The outcomes of the calls that `CreatePackage` makes, in the order of the code;
`none` is a `nil` error. -/
structure CreateCalls where
  /-- The value of `ctx.Err()` if `ctx.Done()` is closed at entry. -/
  ctxDone : Option Error
  /-- The error of `getArch(ctx, configPath)`. -/
  getArch : Option Error
  /-- The error of `ssh.Dial`. -/
  dial : Option Error
  /-- The error of `sshClient.NewSession()`. -/
  newSession : Option Error
  /-- The error of `session.Run("mkdir -p ...")`. -/
  run : Option Error
  /-- The error of `scp.NewClientBySSH(sshClient)`. -/
  newClientBySSH : Option Error
  /-- The error of `os.Open(archiveName)`. -/
  openArchive : Option Error
  /-- The error of `client.CopyFromFile(ctx, *archiveData, remotePath, "0655")`. -/
  copyFromFile : Option Error

/-- The method `CreatePackage` of `create..go`, as a function of the outcomes of its
calls.  After `CopyFromFile` the error is logged and the method returns `nil`. -/
def CreatePackage (calls : CreateCalls) : Option Error :=
  match calls.ctxDone with
  | some err => some (Error.wrap "Create package canceled: %w" err)
  | none =>
  match calls.getArch with
  | some err => some (Error.wrap "failed to create archive for upload: %w" err)
  | none =>
  match calls.dial with
  | some err => some (Error.wrap "failed to connect to SSH server: %w" err)
  | none =>
  match calls.newSession with
  | some err => some (Error.wrap "can't create SSH session: %w" err)
  | none =>
  match calls.run with
  | some err => some (Error.wrap "can't create remote dir %s on server: %w" err)
  | none =>
  match calls.newClientBySSH with
  | some err =>
    some (Error.wrap "error creating new SSH session from existing connection: %w" err)
  | none =>
  match calls.openArchive with
  | some err => some (Error.wrap "failed to open archive for upload: %w" err)
  | none =>
  match calls.copyFromFile with
  | some _ => none
  | none => none

/-! ## The specification's reading of a version -/

/-- A string of decimal digits. -/
def isDigits (s : GoString) : Bool := s.all Char.isDigit

/-- The integer that a string of decimal digits denotes (zero for the empty string). -/
def decimalValue (s : GoString) : Nat := s.foldl (fun n c => n * 10 + (c.toNat - 48)) 0

/-- The sequence of integer component values of a dotted version string. -/
def componentValues (v : GoString) : List Int :=
  (Split v '.').map (fun part => (decimalValue part : Int))

/-- A sequence padded with trailing zeros to the length `n`. -/
def padZeros (n : Nat) (values : List Int) : List Int :=
  values ++ List.replicate (n - values.length) 0

/-- The sign (-1, 0 or 1) of the lexicographic comparison of two integer sequences. -/
def lexSign : List Int → List Int → Int
  | x :: xs, y :: ys => if x < y then -1 else if x > y then 1 else lexSign xs ys
  | _, _ => 0

/-- The comparison of versions in the words of the specification: the sign of the
lexicographic comparison of the two sequences of component values, the shorter one
padded with trailing zeros. -/
def specCompare (a b : GoString) : Int :=
  let n := max (componentValues a).length (componentValues b).length
  lexSign (padZeros n (componentValues a)) (padZeros n (componentValues b))

/-- The version that the resolver reads from a listed archive name. -/
def versionOf (packName archiveName : GoString) : GoString :=
  (getVersionFromArchiveName archiveName packName).1

/-- The listed name yields a version: `getVersionFromArchiveName` returns no error. -/
def yieldsVersion (packName archiveName : GoString) : Prop :=
  (getVersionFromArchiveName archiveName packName).2 = none

/-- A listed name that yields a version satisfying the constraint `ver`. -/
def satisfies (packName ver archiveName : GoString) : Prop :=
  yieldsVersion packName archiveName ∧ checkVersion ver (versionOf packName archiveName) = true

instance (packName archiveName : GoString) : Decidable (yieldsVersion packName archiveName) := by
  unfold yieldsVersion; infer_instance

instance (packName ver archiveName : GoString) :
    Decidable (satisfies packName ver archiveName) := by
  unfold satisfies; infer_instance

/-- What the library promises of its sort, for the comparison function of
`getArchiveName`: the slice it leaves is a rearrangement of the given one, in ascending
order. -/
def SortsAscending (packName : GoString)
    (sort : List GoString → (GoString → GoString → Int) → List GoString) : Prop :=
  ∀ data : List GoString, (sort data (archiveCmp packName)).Perm data ∧
    (sort data (archiveCmp packName)).Pairwise (fun a b => archiveCmp packName a b ≤ 0)

/-! ## The comparison loop -/

theorem component_of_length_le (parts : List GoString) (i : Nat) (h : parts.length ≤ i) :
    component parts i = 0 := by
  unfold component
  rw [List.get?_eq_none.mpr h]

theorem compareLoop_values (p q : List GoString) (n i : Nat) :
    compareLoop p q i n = -1 ∨ compareLoop p q i n = 0 ∨ compareLoop p q i n = 1 := by
  induction n generalizing i with
  | zero => simp [compareLoop]
  | succ n ih =>
    unfold compareLoop
    split_ifs
    · simp
    · simp
    · exact ih (i + 1)

theorem compareLoop_self (p : List GoString) (n i : Nat) : compareLoop p p i n = 0 := by
  induction n generalizing i with
  | zero => rfl
  | succ n ih =>
    unfold compareLoop
    simp [ih]

theorem compareLoop_swap (p q : List GoString) (n i : Nat) :
    compareLoop p q i n = -compareLoop q p i n := by
  induction n generalizing i with
  | zero => simp [compareLoop]
  | succ n ih =>
    unfold compareLoop
    rw [ih (i + 1)]
    split_ifs <;> first | rfl | omega

theorem compareLoop_trans (p q r : List GoString) (n i : Nat)
    (hpq : compareLoop p q i n ≤ 0) (hqr : compareLoop q r i n ≤ 0) :
    compareLoop p r i n ≤ 0 := by
  induction n generalizing i with
  | zero => simp [compareLoop]
  | succ n ih =>
    unfold compareLoop at hpq hqr ⊢
    split_ifs at hpq hqr ⊢ <;> first | omega | exact ih (i + 1) hpq hqr

theorem compareLoop_extend (p q : List GoString) (n m i : Nat)
    (h : ∀ j, i + n ≤ j → component p j = component q j) :
    compareLoop p q i (n + m) = compareLoop p q i n := by
  induction n generalizing i with
  | zero =>
    induction m generalizing i with
    | zero => rfl
    | succ m ihm =>
      rw [show 0 + (m + 1) = (0 + m) + 1 by omega]
      unfold compareLoop
      rw [h i (by omega)]
      simp only [lt_self_iff_false, gt_iff_lt, if_false]
      rw [ihm (i + 1) (fun j hj => h j (by omega))]
      rfl
  | succ n ih =>
    rw [show n + 1 + m = (n + m) + 1 by omega]
    unfold compareLoop
    rw [ih (i + 1) (fun j hj => h j (by omega))]

theorem compareVersions_eq_loop (a b : GoString) (N : Nat)
    (ha : (Split a '.').length ≤ N) (hb : (Split b '.').length ≤ N) :
    compareVersions a b = compareLoop (Split a '.') (Split b '.') 0 N := by
  unfold compareVersions
  simp only
  split_ifs with hlen
  · obtain ⟨m, rfl⟩ := Nat.exists_eq_add_of_le hb
    symm
    apply compareLoop_extend
    intro j hj
    rw [component_of_length_le _ _ (by omega), component_of_length_le _ _ (by omega)]
  · obtain ⟨m, rfl⟩ := Nat.exists_eq_add_of_le ha
    symm
    apply compareLoop_extend
    intro j hj
    rw [component_of_length_le _ _ (by omega), component_of_length_le _ _ (by omega)]

theorem compareVersions_values (a b : GoString) :
    compareVersions a b = -1 ∨ compareVersions a b = 0 ∨ compareVersions a b = 1 := by
  unfold compareVersions
  exact compareLoop_values _ _ _ _

theorem compareVersions_self (a : GoString) : compareVersions a a = 0 := by
  unfold compareVersions
  exact compareLoop_self _ _ _

theorem compareVersions_swap (a b : GoString) :
    compareVersions a b = -compareVersions b a := by
  rw [compareVersions_eq_loop a b (max (Split a '.').length (Split b '.').length)
        (le_max_left _ _) (le_max_right _ _),
      compareVersions_eq_loop b a (max (Split a '.').length (Split b '.').length)
        (le_max_right _ _) (le_max_left _ _)]
  exact compareLoop_swap _ _ _ _

theorem compareVersions_trans (a b c : GoString)
    (hab : compareVersions a b ≤ 0) (hbc : compareVersions b c ≤ 0) :
    compareVersions a c ≤ 0 := by
  have hN : ∃ N, (Split a '.').length ≤ N ∧ (Split b '.').length ≤ N ∧
      (Split c '.').length ≤ N :=
    ⟨(Split a '.').length + (Split b '.').length + (Split c '.').length,
      by omega, by omega, by omega⟩
  obtain ⟨N, ha, hb, hc⟩ := hN
  rw [compareVersions_eq_loop a b N ha hb] at hab
  rw [compareVersions_eq_loop b c N hb hc] at hbc
  rw [compareVersions_eq_loop a c N ha hc]
  exact compareLoop_trans _ _ _ _ _ hab hbc

/-! ## Digit strings -/

theorem parseDigits_of_digits (s : GoString) (n : Nat) (h : ∀ c ∈ s, c.isDigit = true) :
    parseDigits s n = some (s.foldl (fun n c => n * 10 + (c.toNat - 48)) n) := by
  induction s generalizing n with
  | nil => rfl
  | cons c cs ih =>
    have hc : c.isDigit = true := h c (List.mem_cons_self _ _)
    simp only [parseDigits, digitValue, hc, if_true, List.foldl_cons]
    exact ih _ (fun d hd => h d (List.mem_cons_of_mem _ hd))

theorem splitSign_of_digits (s : GoString) (h : ∀ c ∈ s, c.isDigit = true) :
    splitSign s = (false, s) := by
  unfold splitSign
  split
  · exact absurd (h '+' (List.mem_cons_self _ _)) (by decide)
  · exact absurd (h '-' (List.mem_cons_self _ _)) (by decide)
  · rfl

theorem Atoi_of_digits (s : GoString) (hne : s ≠ []) (hd : isDigits s = true)
    (hlt : decimalValue s < 2 ^ (intSize - 1)) : Atoi s = ((decimalValue s : Int), none) := by
  have hall : ∀ c ∈ s, c.isDigit = true := by
    simpa [isDigits, List.all_eq_true] using hd
  unfold Atoi
  simp only [splitSign_of_digits s hall, hne, if_false, parseDigits_of_digits s 0 hall]
  have hlt2 : ¬ (s.foldl (fun n c => n * 10 + (c.toNat - 48)) 0 ≥ 2 ^ (intSize - 1)) := by
    unfold decimalValue at hlt
    omega
  simp [hlt2, decimalValue]

theorem component_of_digits (parts : List GoString) (i : Nat)
    (h : ∀ part ∈ parts, isDigits part = true ∧ decimalValue part < 2 ^ (intSize - 1)) :
    component parts i = (parts.map (fun part => (decimalValue part : Int))).getD i 0 := by
  unfold component
  rw [List.getD_eq_getElem?_getD, List.getElem?_map, List.get?_eq_getElem?]
  cases hget : parts[i]? with
  | none => rfl
  | some part =>
    have hmem : part ∈ parts := List.getElem?_mem hget
    by_cases hne : part = []
    · subst hne
      simp [decimalValue]
    · simp only [ne_eq, hne, not_false_eq_true, if_true, Option.map_some', Option.getD_some]
      rw [Atoi_of_digits part hne (h part hmem).1 (h part hmem).2]

/-! ## The loop as a lexicographic comparison -/

theorem compareLoop_eq_lexSign (p q : List GoString) (n i : Nat) :
    compareLoop p q i n =
      lexSign ((List.range' i n).map (component p)) ((List.range' i n).map (component q)) := by
  induction n generalizing i with
  | zero => rfl
  | succ n ih =>
    rw [List.range'_succ]
    simp only [List.map_cons, lexSign, compareLoop]
    rw [ih (i + 1)]

theorem padZeros_eq_map (values : List Int) (N : Nat) (h : values.length ≤ N) :
    padZeros N values = (List.range' 0 N).map (fun k => values.getD k 0) := by
  unfold padZeros
  apply List.ext_getElem?
  intro k
  by_cases hk : k < values.length
  · rw [List.getElem?_append_left hk]
    simp [List.getElem?_map, List.getElem?_range', List.getD_eq_getElem?_getD, hk,
      show k < N by omega]
  · rw [List.getElem?_append_right (by omega)]
    by_cases hkN : k < N
    · simp [List.getElem?_map, List.getElem?_range', List.getD_eq_getElem?_getD, hkN,
        List.getElem?_replicate, show k - values.length < N - values.length by omega,
        List.getElem?_eq_none (show values.length ≤ k by omega)]
    · rw [List.getElem?_eq_none (by simp; omega), List.getElem?_eq_none (by simp; omega)]

theorem lexSign_eq_zero_iff (l l2 : List Int) (h : l.length = l2.length) :
    lexSign l l2 = 0 ↔ l = l2 := by
  induction l generalizing l2 with
  | nil =>
    cases l2 with
    | nil => simp [lexSign]
    | cons y ys => simp at h
  | cons x xs ih =>
    cases l2 with
    | nil => simp at h
    | cons y ys =>
      simp only [List.length_cons, Nat.add_right_cancel_iff] at h
      simp only [lexSign, List.cons.injEq]
      split_ifs with h1 h2
      · constructor
        · intro h0; exact absurd h0 (by decide)
        · rintro ⟨rfl, _⟩; exact absurd h1 (lt_irrefl _)
      · constructor
        · intro h0; exact absurd h0 (by decide)
        · rintro ⟨rfl, _⟩; exact absurd h2 (lt_irrefl _)
      · rw [ih ys h]
        constructor
        · intro hxy; exact ⟨by omega, hxy⟩
        · rintro ⟨_, hxy⟩; exact hxy

theorem compareLoop_first_difference (p q : List GoString) (n s i : Nat)
    (hs : s ≤ i) (hi : i < s + n)
    (heq : ∀ j, s ≤ j → j < i → component p j = component q j)
    (hlt : component p i < component q i) : compareLoop p q s n = -1 := by
  induction n generalizing s with
  | zero => omega
  | succ n ih =>
    unfold compareLoop
    by_cases hsi : s = i
    · subst hsi
      simp [hlt]
    · have hsame := heq s (le_refl _) (by omega)
      rw [hsame]
      simp only [lt_self_iff_false, gt_iff_lt, if_false]
      exact ih (s + 1) (by omega) (by omega) (fun j hj hji => heq j (by omega) hji)

/-! ## Constraints -/

theorem HasPrefix_iff (s pre : GoString) : HasPrefix s pre = true ↔ ∃ rest, s = pre ++ rest := by
  unfold HasPrefix
  rw [List.isPrefixOf_iff_prefix]
  constructor
  · rintro ⟨t, ht⟩
    exact ⟨t, ht.symm⟩
  · rintro ⟨t, ht⟩
    exact ⟨t, ht.symm⟩

theorem TrimPrefix_append (pre rest : GoString) : TrimPrefix (pre ++ rest) pre = rest := by
  unfold TrimPrefix
  rw [(HasPrefix_iff _ _).mpr ⟨rest, rfl⟩]
  simp

theorem checkVersion_ge (rest a : GoString) :
    checkVersion ('>' :: '=' :: rest) a = decide (compareVersions a rest ≥ 0) := by
  simp [checkVersion, HasPrefix, TrimPrefix, String.toList]

theorem checkVersion_le (rest a : GoString) :
    checkVersion ('<' :: '=' :: rest) a = decide (compareVersions a rest ≤ 0) := by
  simp [checkVersion, HasPrefix, TrimPrefix, String.toList]

theorem checkVersion_gt (rest a : GoString) (h : HasPrefix ('>' :: rest) ">=".toList = false) :
    checkVersion ('>' :: rest) a = decide (compareVersions a rest > 0) := by
  simp [HasPrefix, String.toList] at h
  simp [checkVersion, HasPrefix, TrimPrefix, String.toList, h]

theorem checkVersion_lt (rest a : GoString) (h : HasPrefix ('<' :: rest) "<=".toList = false) :
    checkVersion ('<' :: rest) a = decide (compareVersions a rest < 0) := by
  simp [HasPrefix, String.toList] at h
  simp [checkVersion, HasPrefix, TrimPrefix, String.toList, h]

theorem checkVersion_plain (c a : GoString) (hgt : HasPrefix c ">".toList = false)
    (hlt : HasPrefix c "<".toList = false) :
    checkVersion c a = true ↔ c = [] ∨ c = a := by
  unfold checkVersion
  by_cases hc : c = []
  · simp [hc]
  · rw [if_neg hc, if_pos (by rw [hgt, hlt]; rfl)]
    simp [hc]

/-! ## Properties of the version model -/

/-- C1 (as stated, refuted): the component `9223372036854775808` is a string of decimal
digits, so the sign of the numeric comparison with `1` is 1, but `Atoi` reports a range
error for it, the component counts as zero and `compareVersions` returns -1. -/
theorem compareVersions_numeric_counterexample :
    (∀ part ∈ Split "9223372036854775808".toList '.', part ≠ [] ∧ isDigits part = true) ∧
    (∀ part ∈ Split "1".toList '.', part ≠ [] ∧ isDigits part = true) ∧
    specCompare "9223372036854775808".toList "1".toList = 1 ∧
    compareVersions "9223372036854775808".toList "1".toList = -1 := by
  decide

/-- C1 (amended): for version strings whose dot-separated components are strings of
decimal digits with a value that fits Go's `int` (below `2^(intSize-1)`),
`compareVersions` is the sign of the lexicographic comparison of the two sequences of
component values, the shorter one padded with trailing zeros; it is 0 exactly when the
padded sequences are equal (`1.10` and `1.010`) and -1 when the first differing
component is smaller in the first version (`1.9` and `1.10`). -/
theorem compareVersions_numeric (a b : GoString)
    (ha : ∀ part ∈ Split a '.', isDigits part = true ∧ decimalValue part < 2 ^ (intSize - 1))
    (hb : ∀ part ∈ Split b '.', isDigits part = true ∧ decimalValue part < 2 ^ (intSize - 1)) :
    compareVersions a b = specCompare a b ∧
    (compareVersions a b = 0 ↔
      padZeros (max (componentValues a).length (componentValues b).length) (componentValues a) =
      padZeros (max (componentValues a).length (componentValues b).length) (componentValues b)) ∧
    (∀ i, (∀ j, j < i → (componentValues a).getD j 0 = (componentValues b).getD j 0) →
      (componentValues a).getD i 0 < (componentValues b).getD i 0 →
      compareVersions a b = -1) ∧
    compareVersions "1.10".toList "1.010".toList = 0 ∧
    compareVersions "1.9".toList "1.10".toList = -1 := by
  have hla : (componentValues a).length = (Split a '.').length := by simp [componentValues]
  have hlb : (componentValues b).length = (Split b '.').length := by simp [componentValues]
  have hca : ∀ i, component (Split a '.') i = (componentValues a).getD i 0 :=
    fun i => component_of_digits _ i ha
  have hcb : ∀ i, component (Split b '.') i = (componentValues b).getD i 0 :=
    fun i => component_of_digits _ i hb
  have hspec : compareVersions a b = specCompare a b := by
    rw [compareVersions_eq_loop a b (max (componentValues a).length (componentValues b).length)
      (by rw [hla]; exact le_max_left _ _) (by rw [hlb]; exact le_max_right _ _)]
    unfold specCompare
    simp only
    rw [compareLoop_eq_lexSign, padZeros_eq_map _ _ (le_max_left _ _),
      padZeros_eq_map _ _ (le_max_right _ _)]
    congr 1
    · exact List.map_congr_left (fun i _ => hca i)
    · exact List.map_congr_left (fun i _ => hcb i)
  refine ⟨hspec, ?_, ?_, by decide, by decide⟩
  · rw [hspec]
    unfold specCompare
    simp only
    apply lexSign_eq_zero_iff
    simp [padZeros]
  · intro i heq hlt
    have hi : i < max (Split a '.').length (Split b '.').length := by
      by_contra hge
      have h1 : (componentValues a).getD i 0 = 0 := by
        rw [List.getD_eq_getElem?_getD, List.getElem?_eq_none (by rw [hla]; omega)]; rfl
      have h2 : (componentValues b).getD i 0 = 0 := by
        rw [List.getD_eq_getElem?_getD, List.getElem?_eq_none (by rw [hlb]; omega)]; rfl
      omega
    rw [compareVersions_eq_loop a b (max (Split a '.').length (Split b '.').length)
      (le_max_left _ _) (le_max_right _ _)]
    apply compareLoop_first_difference _ _ _ 0 i (Nat.zero_le _) (by omega)
    · intro j _ hji
      rw [hca, hcb]
      exact heq j hji
    · rw [hca, hcb]
      exact hlt

/-- C1 (amended), at the versions `1.9` and `1.10`. -/
theorem compareVersions_numeric_witness :
    (∀ part ∈ Split "1.9".toList '.',
      isDigits part = true ∧ decimalValue part < 2 ^ (intSize - 1)) ∧
    (∀ part ∈ Split "1.10".toList '.',
      isDigits part = true ∧ decimalValue part < 2 ^ (intSize - 1)) ∧
    compareVersions "1.9".toList "1.10".toList = specCompare "1.9".toList "1.10".toList :=
  ⟨by decide, by decide,
    (compareVersions_numeric "1.9".toList "1.10".toList (by decide) (by decide)).1⟩

/-- The input of the test case `invalid version format`, which `pacm_test.go` holds
only as a comment with the expected value `false`: the component `12-beta` is rejected
by `Atoi` and counts as zero, so `1.13` is above the operand and the constraint holds. -/
theorem checkVersion_invalid_format_example :
    checkVersion ">1.12-beta".toList "1.13".toList = true := by
  decide

/-- C2: a constraint that starts with a relational operator is evaluated by removing
the operator and comparing the actual version numerically with the rest, the
two-character operators being tested first: `>=` holds iff the comparison is at least
0, else `<=` iff at most 0, else `>` iff above 0, else `<` iff below 0. -/
theorem checkVersion_relational (c a : GoString) :
    (HasPrefix c ">=".toList = true →
      (checkVersion c a = true ↔ compareVersions a (TrimPrefix c ">=".toList) ≥ 0)) ∧
    (HasPrefix c ">=".toList = false → HasPrefix c "<=".toList = true →
      (checkVersion c a = true ↔ compareVersions a (TrimPrefix c "<=".toList) ≤ 0)) ∧
    (HasPrefix c ">=".toList = false → HasPrefix c "<=".toList = false →
      HasPrefix c ">".toList = true →
      (checkVersion c a = true ↔ compareVersions a (TrimPrefix c ">".toList) > 0)) ∧
    (HasPrefix c ">=".toList = false → HasPrefix c "<=".toList = false →
      HasPrefix c ">".toList = false → HasPrefix c "<".toList = true →
      (checkVersion c a = true ↔ compareVersions a (TrimPrefix c "<".toList) < 0)) := by
  refine ⟨?_, ?_, ?_, ?_⟩
  · intro h
    obtain ⟨rest, rfl⟩ := (HasPrefix_iff _ _).mp h
    rw [TrimPrefix_append]
    exact (checkVersion_ge rest a).symm ▸ decide_eq_true_iff
  · intro _ h
    obtain ⟨rest, rfl⟩ := (HasPrefix_iff _ _).mp h
    rw [TrimPrefix_append]
    exact (checkVersion_le rest a).symm ▸ decide_eq_true_iff
  · intro hge _ h
    obtain ⟨rest, rfl⟩ := (HasPrefix_iff _ _).mp h
    rw [TrimPrefix_append]
    exact (checkVersion_gt rest a hge).symm ▸ decide_eq_true_iff
  · intro _ hle _ h
    obtain ⟨rest, rfl⟩ := (HasPrefix_iff _ _).mp h
    rw [TrimPrefix_append]
    exact (checkVersion_lt rest a hle).symm ▸ decide_eq_true_iff

/-- C2, at the constraints of the tests: `>=1.12` against `1.13` and `1.11`, `<=1.12`,
`>1.12` and `<1.12` against `1.12`. -/
theorem checkVersion_relational_witness :
    checkVersion ">=1.12".toList "1.13".toList = true ∧
    ¬ checkVersion ">=1.12".toList "1.11".toList = true ∧
    checkVersion "<=1.12".toList "1.12".toList = true ∧
    ¬ checkVersion ">1.12".toList "1.12".toList = true ∧
    ¬ checkVersion "<1.12".toList "1.12".toList = true :=
  ⟨((checkVersion_relational ">=1.12".toList "1.13".toList).1 (by decide)).mpr (by decide),
   fun h => absurd
    (((checkVersion_relational ">=1.12".toList "1.11".toList).1 (by decide)).mp h) (by decide),
   ((checkVersion_relational "<=1.12".toList "1.12".toList).2.1
      (by decide) (by decide)).mpr (by decide),
   fun h => absurd
    (((checkVersion_relational ">1.12".toList "1.12".toList).2.2.1
      (by decide) (by decide) (by decide)).mp h) (by decide),
   fun h => absurd
    (((checkVersion_relational "<1.12".toList "1.12".toList).2.2.2
      (by decide) (by decide) (by decide) (by decide)).mp h) (by decide)⟩

/-- C3: a constraint that begins with neither `>` nor `<` holds iff it is empty or is
the actual version, character for character; so the empty constraint holds for every
actual version, `1.12` holds for `1.12`, and `1.12` does not hold for `1.120`. -/
theorem checkVersion_plain_equality (c a : GoString)
    (hgt : HasPrefix c ">".toList = false) (hlt : HasPrefix c "<".toList = false) :
    (checkVersion c a = true ↔ c = [] ∨ c = a) ∧
    checkVersion [] a = true ∧
    checkVersion "1.12".toList "1.12".toList = true ∧
    checkVersion "1.12".toList "1.120".toList = false :=
  ⟨checkVersion_plain c a hgt hlt, by simp [checkVersion], by decide, by decide⟩

/-- C3, at the constraint `1.12` and the actual version `1.120`. -/
theorem checkVersion_plain_equality_witness :
    HasPrefix "1.12".toList ">".toList = false ∧ HasPrefix "1.12".toList "<".toList = false ∧
    (checkVersion "1.12".toList "1.120".toList = true ↔
      "1.12".toList = [] ∨ "1.12".toList = "1.120".toList) :=
  ⟨by decide, by decide,
    (checkVersion_plain_equality "1.12".toList "1.120".toList (by decide) (by decide)).1⟩

/-- C6 (as stated, refuted): the constraint `=1.12` begins with `=` and holds for the
actual version `=1.12`. -/
theorem checkVersion_equals_sign_counterexample :
    HasPrefix "=1.12".toList "=".toList = true ∧
    checkVersion "=1.12".toList "=1.12".toList = true := by
  decide

/-- C6 (amended): a constraint that begins with `=` is compared with the actual version
as a plain string: it holds iff the actual version is the constraint itself, hence for
no actual version that does not begin with `=`; `=1.12` does not hold for `1.12`. -/
theorem checkVersion_equals_sign (c a : GoString) (h : HasPrefix c "=".toList = true) :
    (checkVersion c a = true ↔ a = c) ∧
    (HasPrefix a "=".toList = false → checkVersion c a = false) ∧
    checkVersion "=1.12".toList "1.12".toList = false := by
  obtain ⟨rest, rfl⟩ := (HasPrefix_iff _ _).mp h
  have hplain := checkVersion_plain ("=".toList ++ rest) a (by rfl) (by rfl)
  have hiff : checkVersion ("=".toList ++ rest) a = true ↔ a = "=".toList ++ rest := by
    rw [hplain]
    constructor
    · rintro (h0 | h1)
      · exact absurd h0 (by simp [String.toList])
      · exact h1.symm
    · intro h1
      exact Or.inr h1.symm
  refine ⟨hiff, ?_, by decide⟩
  intro ha
  cases hcv : checkVersion ("=".toList ++ rest) a with
  | false => rfl
  | true =>
    rw [hiff.mp hcv, (HasPrefix_iff _ _).mpr ⟨rest, rfl⟩] at ha
    exact absurd ha (by decide)

/-- C6 (amended), at the constraint `=1.12` and the actual version `1.12`. -/
theorem checkVersion_equals_sign_witness :
    HasPrefix "=1.12".toList "=".toList = true ∧
    (checkVersion "=1.12".toList "1.12".toList = true ↔ "1.12".toList = "=1.12".toList) :=
  ⟨by decide, (checkVersion_equals_sign "=1.12".toList "1.12".toList (by decide)).1⟩

/-- C10: `compareVersions` is a total preorder on all strings: its value is -1, 0 or 1,
a string compares equal to itself, exchanging the arguments negates the value, and
"at most 0" is transitive. -/
theorem compareVersions_total_preorder (a b c : GoString) :
    (compareVersions a b = -1 ∨ compareVersions a b = 0 ∨ compareVersions a b = 1) ∧
    compareVersions a a = 0 ∧
    compareVersions a b = -compareVersions b a ∧
    (compareVersions a b ≤ 0 → compareVersions b c ≤ 0 → compareVersions a c ≤ 0) :=
  ⟨compareVersions_values a b, compareVersions_self a, compareVersions_swap a b,
    compareVersions_trans a b c⟩

/-- C10, at `1.9`, `1.x` (a component that is not a number) and `1.10`. -/
theorem compareVersions_total_preorder_witness :
    compareVersions "1.x".toList "1.9".toList ≤ 0 ∧
    compareVersions "1.9".toList "1.10".toList ≤ 0 ∧
    compareVersions "1.x".toList "1.10".toList ≤ 0 :=
  ⟨by decide, by decide,
    (compareVersions_total_preorder "1.x".toList "1.9".toList "1.10".toList).2.2.2
      (by decide) (by decide)⟩

/-! ## Base names -/

theorem Base_of_no_slash (r : GoString) (hne : r ≠ []) (h : ∀ c ∈ r, c ≠ '/') :
    Base r = r := by
  have hdrop : r.reverse.dropWhile (fun c => decide (c = '/')) = r.reverse := by
    rw [List.dropWhile_eq_self_iff]
    intro hpos
    have hmem : r.reverse.get ⟨0, hpos⟩ ∈ r := List.mem_reverse.mp (List.get_mem _ _ _)
    simpa using h _ hmem
  have htake : r.reverse.takeWhile (fun c => decide (c ≠ '/')) = r.reverse := by
    rw [List.takeWhile_eq_self_iff]
    intro c hc
    simpa using h c (List.mem_reverse.mp hc)
  unfold Base
  simp only [hne, if_false, hdrop, List.reverse_reverse, htake]

theorem Base_idempotent (path : GoString) : Base (Base path) = Base path := by
  by_cases hp : path = []
  · subst hp
    decide
  · by_cases hlast : ((path.reverse.dropWhile (fun c => decide (c = '/'))).reverse.reverse.takeWhile
        (fun c => decide (c ≠ '/'))).reverse = []
    · have : Base path = "/".toList := by
        unfold Base
        simp only [hp, if_false, hlast, if_true]
      rw [this]
      decide
    · have hB : Base path =
          ((path.reverse.dropWhile (fun c => decide (c = '/'))).reverse.reverse.takeWhile
            (fun c => decide (c ≠ '/'))).reverse := by
        unfold Base
        simp only [hp, if_false, hlast]
      rw [hB]
      apply Base_of_no_slash _ hlast
      intro c hc
      have := List.mem_takeWhile_imp (List.mem_reverse.mp hc)
      simpa using this

theorem getVersionFromArchiveName_Base (arch packName : GoString) :
    getVersionFromArchiveName (Base arch) packName = getVersionFromArchiveName arch packName := by
  unfold getVersionFromArchiveName
  rw [Base_idempotent]

/-! ## Constraints along an ascending list -/

theorem checkVersion_shapes (ver : GoString) :
    (∀ a, checkVersion ver a = true) ∨
    (∀ a, checkVersion ver a = true ↔ ver = a) ∨
    (∃ rest, ∀ a, checkVersion ver a = true ↔ compareVersions a rest ≥ 0) ∨
    (∃ rest, ∀ a, checkVersion ver a = true ↔ compareVersions a rest ≤ 0) ∨
    (∃ rest, ∀ a, checkVersion ver a = true ↔ compareVersions a rest > 0) ∨
    (∃ rest, ∀ a, checkVersion ver a = true ↔ compareVersions a rest < 0) := by
  by_cases hempty : ver = []
  · left
    intro a
    simp [checkVersion, hempty]
  by_cases hge : HasPrefix ver ">=".toList = true
  · obtain ⟨rest, rfl⟩ := (HasPrefix_iff _ _).mp hge
    right; right; left
    exact ⟨rest, fun a => (checkVersion_ge rest a).symm ▸ decide_eq_true_iff⟩
  by_cases hle : HasPrefix ver "<=".toList = true
  · obtain ⟨rest, rfl⟩ := (HasPrefix_iff _ _).mp hle
    right; right; right; left
    exact ⟨rest, fun a => (checkVersion_le rest a).symm ▸ decide_eq_true_iff⟩
  by_cases hgt : HasPrefix ver ">".toList = true
  · obtain ⟨rest, rfl⟩ := (HasPrefix_iff _ _).mp hgt
    right; right; right; right; left
    exact ⟨rest, fun a =>
      (checkVersion_gt rest a (by simpa using hge)).symm ▸ decide_eq_true_iff⟩
  by_cases hlt : HasPrefix ver "<".toList = true
  · obtain ⟨rest, rfl⟩ := (HasPrefix_iff _ _).mp hlt
    right; right; right; right; right
    exact ⟨rest, fun a =>
      (checkVersion_lt rest a (by simpa using hle)).symm ▸ decide_eq_true_iff⟩
  right; left
  intro a
  rw [checkVersion_plain ver a (by simpa using hgt) (by simpa using hlt)]
  constructor
  · rintro (h | h)
    · exact absurd h hempty
    · exact h
  · exact Or.inr

/-- If, in ascending order, a version that does not satisfy the constraint lies between
two that do, then the two compare equal: the later one is not above the earlier one. -/
theorem checkVersion_no_gap (ver x n y : GoString)
    (hx : checkVersion ver x = true) (hn : ¬ checkVersion ver n = true)
    (hy : checkVersion ver y = true)
    (hxn : compareVersions x n ≤ 0) (hny : compareVersions n y ≤ 0) :
    compareVersions y x ≤ 0 := by
  rcases checkVersion_shapes ver with h | h | ⟨rest, h⟩ | ⟨rest, h⟩ | ⟨rest, h⟩ | ⟨rest, h⟩
  · exact absurd (h n) hn
  · rw [← (h x).mp hx, ← (h y).mp hy, compareVersions_self]
  · exfalso
    apply hn
    rw [h] at hx ⊢
    have h1 : compareVersions rest x ≤ 0 := by rw [compareVersions_swap]; omega
    have h2 := compareVersions_trans rest x n h1 hxn
    rw [compareVersions_swap]; omega
  · exfalso
    apply hn
    rw [h] at hy ⊢
    exact compareVersions_trans n y rest hny hy
  · exfalso
    apply hn
    rw [h] at hx ⊢
    by_contra hcon
    have := compareVersions_trans x n rest hxn (by omega)
    omega
  · exfalso
    apply hn
    rw [h] at hy ⊢
    by_contra hcon
    have h1 : compareVersions rest n ≤ 0 := by rw [compareVersions_swap]; omega
    have h2 := compareVersions_trans rest n y h1 hny
    rw [compareVersions_swap] at h2
    omega

/-! ## The scan of the resolver -/

theorem scanLoop_cons_of_yields (packName ver arch : GoString) (rest : List GoString)
    (archName : GoString) (found : Bool) (h : yieldsVersion packName arch) :
    scanLoop packName ver (arch :: rest) archName found =
      if checkVersion ver (versionOf packName arch) = true then
        scanLoop packName ver rest (Base arch) true
      else if found = true then archName
      else scanLoop packName ver rest archName found := by
  unfold yieldsVersion at h
  unfold versionOf
  rw [scanLoop]
  simp only [getVersionFromArchiveName_Base]
  rcases hv : getVersionFromArchiveName arch packName with ⟨v, e⟩
  rw [hv] at h
  simp only at h
  subst h
  rfl

theorem scanLoop_found (packName ver : GoString) (l : List GoString) (cur : GoString)
    (hvalid : ∀ c ∈ l, yieldsVersion packName c)
    (hcur : checkVersion ver (versionOf packName cur) = true)
    (hsorted : (cur :: l).Pairwise (fun a b => archiveCmp packName a b ≤ 0)) :
    ∃ c ∈ cur :: l, scanLoop packName ver l (Base cur) true = Base c ∧
      checkVersion ver (versionOf packName c) = true ∧
      ∀ d ∈ cur :: l, checkVersion ver (versionOf packName d) = true →
        archiveCmp packName d c ≤ 0 := by
  induction l generalizing cur with
  | nil =>
    refine ⟨cur, List.mem_cons_self _ _, rfl, hcur, ?_⟩
    intro d hd _
    rw [List.mem_singleton.mp hd]
    exact le_of_eq (compareVersions_self _)
  | cons n rest ih =>
    rw [scanLoop_cons_of_yields _ _ _ _ _ _ (hvalid n (List.mem_cons_self _ _))]
    have hcn : archiveCmp packName cur n ≤ 0 :=
      List.rel_of_pairwise_cons hsorted (List.mem_cons_self _ _)
    by_cases hn : checkVersion ver (versionOf packName n) = true
    · rw [if_pos hn]
      obtain ⟨c, hc, hres, hok, hmax⟩ :=
        ih n (fun c hc => hvalid c (List.mem_cons_of_mem _ hc)) hn (List.Pairwise.of_cons hsorted)
      refine ⟨c, List.mem_cons_of_mem _ hc, hres, hok, ?_⟩
      intro d hd hdok
      rcases List.mem_cons.mp hd with rfl | hd
      · exact compareVersions_trans _ _ _ hcn (hmax n (List.mem_cons_self _ _) hn)
      · exact hmax d hd hdok
    · rw [if_neg hn, if_pos rfl]
      refine ⟨cur, List.mem_cons_self _ _, rfl, hcur, ?_⟩
      intro d hd hdok
      rcases List.mem_cons.mp hd with rfl | hd
      · exact le_of_eq (compareVersions_self _)
      · rcases List.mem_cons.mp hd with rfl | hd
        · exact absurd hdok hn
        · have hnd : archiveCmp packName n d ≤ 0 :=
            List.rel_of_pairwise_cons (List.Pairwise.of_cons hsorted) hd
          exact checkVersion_no_gap ver _ _ _ hcur hn hdok hcn hnd

theorem scanLoop_not_found (packName ver : GoString) (l : List GoString) (archName : GoString)
    (hvalid : ∀ c ∈ l, yieldsVersion packName c)
    (hsat : ∃ c ∈ l, checkVersion ver (versionOf packName c) = true)
    (hsorted : l.Pairwise (fun a b => archiveCmp packName a b ≤ 0)) :
    ∃ c ∈ l, scanLoop packName ver l archName false = Base c ∧
      checkVersion ver (versionOf packName c) = true ∧
      ∀ d ∈ l, checkVersion ver (versionOf packName d) = true →
        archiveCmp packName d c ≤ 0 := by
  induction l with
  | nil =>
    obtain ⟨c, hc, _⟩ := hsat
    exact absurd hc (List.not_mem_nil _)
  | cons n rest ih =>
    rw [scanLoop_cons_of_yields _ _ _ _ _ _ (hvalid n (List.mem_cons_self _ _))]
    by_cases hn : checkVersion ver (versionOf packName n) = true
    · rw [if_pos hn]
      exact scanLoop_found packName ver rest n
        (fun c hc => hvalid c (List.mem_cons_of_mem _ hc)) hn hsorted
    · rw [if_neg hn, if_neg (by simp)]
      have hsat2 : ∃ c ∈ rest, checkVersion ver (versionOf packName c) = true := by
        obtain ⟨c, hc, hok⟩ := hsat
        rcases List.mem_cons.mp hc with rfl | hc
        · exact absurd hok hn
        · exact ⟨c, hc, hok⟩
      obtain ⟨c, hc, hres, hok, hmax⟩ :=
        ih (fun c hc => hvalid c (List.mem_cons_of_mem _ hc)) hsat2 (List.Pairwise.of_cons hsorted)
      refine ⟨c, List.mem_cons_of_mem _ hc, hres, hok, ?_⟩
      intro d hd hdok
      rcases List.mem_cons.mp hd with rfl | hd
      · exact absurd hdok hn
      · exact hmax d hd hdok

/-! ## The insertion sort -/

theorem insertLeft_perm {α : Type} (cmp : α → α → Int) (x : α) (l : List α) :
    (insertLeft cmp x l).Perm (x :: l) := by
  induction l with
  | nil => exact List.Perm.refl _
  | cons y before ih =>
    unfold insertLeft
    split_ifs
    · exact ((List.Perm.cons y ih).trans (List.Perm.swap x y before))
    · exact List.Perm.refl _

theorem insertLeft_descending {α : Type} (cmp : α → α → Int)
    (hswap : ∀ a b, cmp a b = -cmp b a)
    (htrans : ∀ a b c, cmp a b ≤ 0 → cmp b c ≤ 0 → cmp a c ≤ 0)
    (x : α) (l : List α) (h : l.Pairwise (fun a b => cmp b a ≤ 0)) :
    (insertLeft cmp x l).Pairwise (fun a b => cmp b a ≤ 0) := by
  induction l with
  | nil => exact List.pairwise_singleton _ _
  | cons y before ih =>
    unfold insertLeft
    split_ifs with hxy
    · refine List.Pairwise.cons ?_ (ih (List.Pairwise.of_cons h))
      intro z hz
      rcases List.mem_cons.mp ((insertLeft_perm cmp x before).mem_iff.mp hz) with rfl | hz
      · omega
      · exact List.rel_of_pairwise_cons h hz
    · have hyx : cmp y x ≤ 0 := by rw [hswap]; omega
      refine List.Pairwise.cons ?_ h
      intro z hz
      rcases List.mem_cons.mp hz with rfl | hz
      · exact hyx
      · exact htrans z y x (List.rel_of_pairwise_cons h hz) hyx

theorem foldl_insertLeft {α : Type} (cmp : α → α → Int)
    (hswap : ∀ a b, cmp a b = -cmp b a)
    (htrans : ∀ a b c, cmp a b ≤ 0 → cmp b c ≤ 0 → cmp a c ≤ 0)
    (data acc : List α) (h : acc.Pairwise (fun a b => cmp b a ≤ 0)) :
    (data.foldl (fun sortedRev x => insertLeft cmp x sortedRev) acc).Pairwise
        (fun a b => cmp b a ≤ 0) ∧
    (data.foldl (fun sortedRev x => insertLeft cmp x sortedRev) acc).Perm (data.reverse ++ acc) := by
  induction data generalizing acc with
  | nil => exact ⟨h, List.Perm.refl _⟩
  | cons x rest ih =>
    obtain ⟨h1, h2⟩ := ih (insertLeft cmp x acc) (insertLeft_descending cmp hswap htrans x acc h)
    refine ⟨h1, h2.trans ?_⟩
    rw [List.reverse_cons, List.append_assoc]
    exact List.Perm.append_left _ (insertLeft_perm cmp x acc)

theorem insertionSortCmpFunc_ascending {α : Type} (cmp : α → α → Int)
    (hswap : ∀ a b, cmp a b = -cmp b a)
    (htrans : ∀ a b c, cmp a b ≤ 0 → cmp b c ≤ 0 → cmp a c ≤ 0) (data : List α) :
    (insertionSortCmpFunc data cmp).Pairwise (fun a b => cmp a b ≤ 0) := by
  unfold insertionSortCmpFunc
  rw [List.pairwise_reverse]
  exact (foldl_insertLeft cmp hswap htrans data [] List.Pairwise.nil).1

theorem insertionSortCmpFunc_perm {α : Type} (cmp : α → α → Int)
    (hswap : ∀ a b, cmp a b = -cmp b a)
    (htrans : ∀ a b c, cmp a b ≤ 0 → cmp b c ≤ 0 → cmp a c ≤ 0) (data : List α) :
    (insertionSortCmpFunc data cmp).Perm data := by
  unfold insertionSortCmpFunc
  have h := (foldl_insertLeft cmp hswap htrans data [] List.Pairwise.nil).2
  rw [List.append_nil] at h
  exact (List.reverse_perm _).trans (h.trans (List.reverse_perm _))

theorem archiveCmp_swap (packName a b : GoString) :
    archiveCmp packName a b = -archiveCmp packName b a :=
  compareVersions_swap _ _

theorem archiveCmp_trans (packName a b c : GoString)
    (hab : archiveCmp packName a b ≤ 0) (hbc : archiveCmp packName b c ≤ 0) :
    archiveCmp packName a c ≤ 0 :=
  compareVersions_trans _ _ _ hab hbc

theorem insertionSortCmpFunc_sortsAscending (packName : GoString) :
    SortsAscending packName insertionSortCmpFunc :=
  fun data =>
    ⟨insertionSortCmpFunc_perm _ (archiveCmp_swap packName) (archiveCmp_trans packName) data,
     insertionSortCmpFunc_ascending _ (archiveCmp_swap packName) (archiveCmp_trans packName)
      data⟩

theorem SortFunc_sortsAscending (packName : GoString)
    (pdqsort : List GoString → (GoString → GoString → Int) → List GoString)
    (hlib : SortsAscending packName pdqsort) : SortsAscending packName (SortFunc pdqsort) := by
  intro data
  unfold SortFunc
  split_ifs
  · exact insertionSortCmpFunc_sortsAscending packName data
  · exact hlib data

theorem SortFunc_of_length_le {α : Type} (pdqsort : List α → (α → α → Int) → List α)
    (x : List α) (cmp : α → α → Int) (h : x.length ≤ 12) :
    SortFunc pdqsort x cmp = insertionSortCmpFunc x cmp :=
  if_pos h

theorem getArchiveName_of_short
    (pdqsort : List GoString → (GoString → GoString → Int) → List GoString)
    (newSession : Option Error) (combinedOutput : GoString × Option Error)
    (packName ver : GoString)
    (h : (Split (TrimSpace combinedOutput.1) '\n').length ≤ 12) :
    getArchiveName pdqsort newSession combinedOutput packName ver =
      getArchiveName insertionSortCmpFunc newSession combinedOutput packName ver := by
  unfold getArchiveName
  simp only [SortFunc_of_length_le _ _ _ h]

/-! ## Properties of the resolver -/

/-- C4: `getArchiveName` selects the highest satisfying candidate.  For every listing
that the remote command returns (the lines of `output`, not empty) in which every name
yields a version and at least one satisfies the constraint, `getArchiveName`, which
sorts the lines with `slices.SortFunc` and scans them, returns without error the base
name of a listed candidate that satisfies the constraint and whose version compares
greater than or equal to the version of every satisfying candidate.  Of the library's
sort of slices longer than 12 only the contract is used: it leaves an ascending
rearrangement (`hlib`).  For the listing 1.10, 1.9, 1.11 and the constraint `>=1.10`
the result is the archive of 1.11. -/
theorem getArchiveName_selects_highest
    (pdqsort : List GoString → (GoString → GoString → Int) → List GoString)
    (packName ver output : GoString)
    (hlib : SortsAscending packName pdqsort)
    (hne : TrimSpace output ≠ [])
    (hvalid : ∀ c ∈ Split (TrimSpace output) '\n', yieldsVersion packName c)
    (hsat : ∃ c ∈ Split (TrimSpace output) '\n',
      checkVersion ver (versionOf packName c) = true) :
    (∃ c ∈ Split (TrimSpace output) '\n',
      getArchiveName pdqsort none (output, none) packName ver = (Base c, none) ∧
      checkVersion ver (versionOf packName c) = true ∧
      ∀ d ∈ Split (TrimSpace output) '\n', checkVersion ver (versionOf packName d) = true →
        compareVersions (versionOf packName c) (versionOf packName d) ≥ 0) ∧
    getArchiveName pdqsort none
      ("/r/pkg/pkg-1.10.tar.gz\n/r/pkg/pkg-1.9.tar.gz\n/r/pkg/pkg-1.11.tar.gz\n".toList, none)
      "pkg".toList ">=1.10".toList = ("pkg-1.11.tar.gz".toList, none) := by
  refine ⟨?_, ?_⟩
  · have hsort := SortFunc_sortsAscending packName pdqsort hlib (Split (TrimSpace output) '\n')
    obtain ⟨c, hc, hres, hok, hmax⟩ := scanLoop_not_found packName ver
      (SortFunc pdqsort (Split (TrimSpace output) '\n') (archiveCmp packName)) []
      (fun c hc => hvalid c (hsort.1.mem_iff.mp hc))
      (by
        obtain ⟨c, hc, hok⟩ := hsat
        exact ⟨c, hsort.1.mem_iff.mpr hc, hok⟩)
      hsort.2
    refine ⟨c, hsort.1.mem_iff.mp hc, ?_, hok, ?_⟩
    · unfold getArchiveName
      simp only [hne, if_false, hres]
    · intro d hd hdok
      have h := hmax d (hsort.1.mem_iff.mpr hd) hdok
      have hsw := archiveCmp_swap packName c d
      unfold archiveCmp at h hsw
      unfold versionOf
      omega
  · rw [getArchiveName_of_short _ _ _ _ _ (by decide)]
    decide

/-- C4, at the listing of the versions 1.10, 1.9 and 1.11 of `pkg` and the constraint
`>=1.10`, with the insertion sort in the place of the library's sort of long slices. -/
theorem getArchiveName_selects_highest_witness :
    ∃ c ∈ Split (TrimSpace "pkg-1.10.tar.gz\npkg-1.9.tar.gz\npkg-1.11.tar.gz\n".toList) '\n',
      getArchiveName insertionSortCmpFunc none
        ("pkg-1.10.tar.gz\npkg-1.9.tar.gz\npkg-1.11.tar.gz\n".toList, none)
        "pkg".toList ">=1.10".toList = (Base c, none) ∧
      checkVersion ">=1.10".toList (versionOf "pkg".toList c) = true ∧
      ∀ d ∈ Split (TrimSpace "pkg-1.10.tar.gz\npkg-1.9.tar.gz\npkg-1.11.tar.gz\n".toList) '\n',
        checkVersion ">=1.10".toList (versionOf "pkg".toList d) = true →
        compareVersions (versionOf "pkg".toList c) (versionOf "pkg".toList d) ≥ 0 :=
  (getArchiveName_selects_highest insertionSortCmpFunc "pkg".toList ">=1.10".toList
    "pkg-1.10.tar.gz\npkg-1.9.tar.gz\npkg-1.11.tar.gz\n".toList
    (insertionSortCmpFunc_sortsAscending _)
    (by decide)
    (by decide)
    ⟨"pkg-1.10.tar.gz".toList, by decide, by decide⟩).1

/-- C5 (the code at the failing inputs): for a listing whose only candidate does not
satisfy the constraint, and for a listing whose only name yields no version,
`getArchiveName` returns the empty archive name together with a `nil` error. -/
theorem getArchiveName_not_found_returns_nil
    (pdqsort : List GoString → (GoString → GoString → Int) → List GoString) :
    ¬ satisfies "pkg".toList ">=2.0".toList "pkg-1.9.tar.gz".toList ∧
    getArchiveName pdqsort none ("pkg-1.9.tar.gz\n".toList, none) "pkg".toList
      ">=2.0".toList = ([], none) ∧
    ¬ yieldsVersion "pkg".toList "pkg-.tar.gz".toList ∧
    getArchiveName pdqsort none ("pkg-.tar.gz\n".toList, none) "pkg".toList [] =
      ([], none) := by
  refine ⟨by decide, ?_, by decide, ?_⟩
  · rw [getArchiveName_of_short _ _ _ _ _ (by decide)]
    decide
  · rw [getArchiveName_of_short _ _ _ _ _ (by decide)]
    decide

/-- C7 (the code at the failing inputs): the listing holds `pkg-0.tar.gz`, which yields
the version 0 and satisfies the constraint `<=1`, and `pkg-.tar.gz`, which yields no
version and is visited after it; `getArchiveName` returns the empty archive name.  The
same happens for `pkg--1.tar.gz`, whose version -1 sorts strictly before the name
without a version. -/
theorem getArchiveName_invalid_name_clears_selection
    (pdqsort : List GoString → (GoString → GoString → Int) → List GoString) :
    satisfies "pkg".toList "<=1".toList "pkg-0.tar.gz".toList ∧
    ¬ yieldsVersion "pkg".toList "pkg-.tar.gz".toList ∧
    getArchiveName pdqsort none ("pkg-0.tar.gz\npkg-.tar.gz\n".toList, none) "pkg".toList
      "<=1".toList = ([], none) ∧
    satisfies "pkg".toList "<=1".toList "pkg--1.tar.gz".toList ∧
    archiveCmp "pkg".toList "pkg--1.tar.gz".toList "pkg-.tar.gz".toList = -1 ∧
    getArchiveName pdqsort none ("pkg-.tar.gz\npkg--1.tar.gz\n".toList, none) "pkg".toList
      "<=1".toList = ([], none) := by
  refine ⟨by decide, by decide, ?_, by decide, by decide, ?_⟩
  · rw [getArchiveName_of_short _ _ _ _ _ (by decide)]
    decide
  · rw [getArchiveName_of_short _ _ _ _ _ (by decide)]
    decide

/-! ## The file filter of the archive builder -/

/-- Values of the embedded `Match` at entries of the library's test table, at a
pattern whose unmatched rest is malformed, and at a name of one three-byte character
against which the chunk `??` matches after one byte is skipped. -/
theorem Match_examples :
    Match "abc".toList "abc".toList = (true, none) ∧
    Match "a*".toList "ab/c".toList = (false, none) ∧
    Match "ab[^e-g]".toList "abc".toList = (true, none) ∧
    Match "a?b".toList "a☺b".toList = (true, none) ∧
    Match "*x".toList "xxx".toList = (true, none) ∧
    Match "[".toList "a".toList = (false, some Error.ErrBadPattern) ∧
    Match "[]a]".toList "]".toList = (false, some Error.ErrBadPattern) ∧
    Match "b*[".toList "a".toList = (false, none) ∧
    Match "*??".toList "中".toList = (true, none) := by
  decide

theorem excludeLoop_eq_none_iff (baseName : GoString) (excludes : List GoString) :
    excludeLoop baseName excludes = none ↔
      ∀ exclude ∈ excludes, Match exclude baseName = (false, none) := by
  induction excludes with
  | nil => simp [excludeLoop]
  | cons e rest ih =>
    unfold excludeLoop
    rcases hm : Match e baseName with ⟨ok, err⟩
    cases ok with
    | true => simp [hm]
    | false =>
      cases err with
      | some x => simp [hm]
      | none => simp [hm, ih]

theorem excludeLoop_of_match (baseName : GoString) (excludes : List GoString)
    (h : ∃ exclude ∈ excludes, (Match exclude baseName).1 = true) :
    excludeLoop baseName excludes ≠ none := by
  intro hnone
  obtain ⟨e, he, hok⟩ := h
  rw [(excludeLoop_eq_none_iff _ _).mp hnone e he] at hok
  exact absurd hok (by decide)

theorem excludeLoop_of_error (baseName : GoString) (excludes : List GoString)
    (hno : ∀ exclude ∈ excludes, (Match exclude baseName).1 = false)
    (herr : ∃ exclude ∈ excludes, (Match exclude baseName).2 ≠ none) :
    ∃ e, excludeLoop baseName excludes = some (some e) := by
  induction excludes with
  | nil =>
    obtain ⟨e, he, _⟩ := herr
    exact absurd he (List.not_mem_nil _)
  | cons x rest ih =>
    unfold excludeLoop
    rw [if_neg (by simp [hno x (List.mem_cons_self _ _)])]
    cases hx : (Match x baseName).2 with
    | some err => exact ⟨_, rfl⟩
    | none =>
      apply ih (fun e he => hno e (List.mem_cons_of_mem _ he))
      obtain ⟨e, he, hne⟩ := herr
      rcases List.mem_cons.mp he with rfl | he
      · exact absurd hx hne
      · exact ⟨e, he, hne⟩

/-- C8 (as stated, refuted): for the target with path `src/*` and exclude list `[`, the
base name of the regular file `src/a` matches no exclude glob (`Match` gives `false` for
the malformed glob) and matches the inclusion glob `*`, but the file is not added: the
walk function returns the pattern error. -/
theorem walkFn_filter_counterexample :
    (∀ exclude ∈ Split "[".toList ',', (Match exclude (Base "src/a".toList)).1 = false) ∧
    (Match (Base "src/*".toList) (Base "src/a".toList)).1 = true ∧
    walkFn ⟨"src/*".toList, "[".toList⟩ "src/a".toList false none =
      WalkStep.done (some (Error.wrap "error match exclude: %w" Error.ErrBadPattern)) := by
  decide

/-- C8 (amended): a regular file visited by the walk is added to the archive iff
`filepath.Match` reports neither a match nor an error for its base name against every
glob of the comma-split exclude list, and reports a match against the inclusion glob
(the base name of the target path).  A file whose base name matches an exclude glob is
never added, whatever the inclusion glob says, and a directory is never added.  When no
exclude glob matches and `Match` reports an error for one of them, the walk function
returns an error. -/
theorem walkFn_filter (target : Target) (filePath : GoString) (isDir : Bool)
    (err : Option Error) :
    (walkFn target filePath false none = WalkStep.addFileToTar ↔
      (∀ exclude ∈ Split target.Exclude ',', Match exclude (Base filePath) = (false, none)) ∧
      Match (Base target.Path) (Base filePath) = (true, none)) ∧
    ((∃ exclude ∈ Split target.Exclude ',', (Match exclude (Base filePath)).1 = true) →
      walkFn target filePath isDir err ≠ WalkStep.addFileToTar) ∧
    walkFn target filePath true err ≠ WalkStep.addFileToTar ∧
    ((∀ exclude ∈ Split target.Exclude ',', (Match exclude (Base filePath)).1 = false) →
      (∃ exclude ∈ Split target.Exclude ',', (Match exclude (Base filePath)).2 ≠ none) →
      ∃ e, walkFn target filePath false none = WalkStep.done (some e)) := by
  refine ⟨?_, ?_, ?_, ?_⟩
  · rw [← excludeLoop_eq_none_iff]
    unfold walkFn
    simp only [Bool.false_eq_true, if_false]
    cases hex : excludeLoop (Base filePath) (Split target.Exclude ',') with
    | some r => simp
    | none =>
      rcases hm : Match (Base target.Path) (Base filePath) with ⟨ok, e⟩
      cases ok <;> cases e <;> simp
  · intro h
    have hex := excludeLoop_of_match _ _ h
    unfold walkFn
    cases err with
    | some e => simp
    | none =>
      cases isDir with
      | true => simp
      | false =>
        cases hl : excludeLoop (Base filePath) (Split target.Exclude ',') with
        | none => exact absurd hl hex
        | some r => simp
  · unfold walkFn
    cases err <;> simp
  · intro hno herr
    obtain ⟨e, he⟩ := excludeLoop_of_error _ _ hno herr
    refine ⟨e, ?_⟩
    unfold walkFn
    simp only [Bool.false_eq_true, if_false, he]

/-- C8 (amended), at the target with path `pkg/*.txt` and exclude list
`packages.txt,x` and the file `pkg/packages.txt`, which matches both the first exclude
glob and the inclusion glob. -/
theorem walkFn_filter_witness :
    (Match (Base "pkg/*.txt".toList) (Base "pkg/packages.txt".toList)).1 = true ∧
    (∃ exclude ∈ Split "packages.txt,x".toList ',',
      (Match exclude (Base "pkg/packages.txt".toList)).1 = true) ∧
    walkFn ⟨"pkg/*.txt".toList, "packages.txt,x".toList⟩ "pkg/packages.txt".toList false none ≠
      WalkStep.addFileToTar :=
  ⟨by decide, by decide,
    (walkFn_filter ⟨"pkg/*.txt".toList, "packages.txt,x".toList⟩ "pkg/packages.txt".toList
      false none).2.1 (by decide)⟩

/-! ## Publishing -/

/-- C9 (the code at the failing input): when every call before the upload succeeds and
`client.CopyFromFile` returns an error, `CreatePackage` returns `nil`. -/
theorem CreatePackage_upload_error_returns_nil (err : Error) :
    CreatePackage (CreateCalls.mk none none none none none none none (some err)) = none :=
  rfl

/-! ## The empty actual version -/

theorem component_of_empty_version (j : Nat) : component (Split [] '.') j = 0 := by
  cases j with
  | zero => rfl
  | succ k => exact component_of_length_le _ _ (by simp [Split])

theorem compareVersions_empty_left (v : GoString) (i : Nat)
    (hzero : ∀ j, j < i → component (Split v '.') j = 0)
    (hpos : 0 < component (Split v '.') i) : compareVersions [] v = -1 := by
  have hi : i < (Split v '.').length := by
    by_contra hge
    rw [component_of_length_le _ _ (by omega)] at hpos
    exact absurd hpos (lt_irrefl _)
  rw [compareVersions_eq_loop [] v (max (Split [] '.').length (Split v '.').length)
    (le_max_left _ _) (le_max_right _ _)]
  apply compareLoop_first_difference _ _ _ 0 i (Nat.zero_le _)
  · have := le_max_right (Split [] '.').length (Split v '.').length
    omega
  · intro j _ hji
    rw [component_of_empty_version, hzero j hji]
  · rw [component_of_empty_version]
    exact hpos

/-! ## Archive names -/

theorem Base_of_dir_slash (dir name : GoString) (hne : name ≠ []) (h : ∀ c ∈ name, c ≠ '/') :
    Base (dir ++ '/' :: name) = name := by
  have hrev : (dir ++ '/' :: name).reverse = name.reverse ++ '/' :: dir.reverse := by simp
  have hdrop : (name.reverse ++ '/' :: dir.reverse).dropWhile (fun c => decide (c = '/')) =
      name.reverse ++ '/' :: dir.reverse := by
    have hnr : name.reverse ≠ [] := by simpa using hne
    obtain ⟨c, cs, hcs⟩ := List.exists_cons_of_ne_nil hnr
    have hc : c ≠ '/' := h c (List.mem_reverse.mp (hcs ▸ List.mem_cons_self c cs))
    rw [hcs, List.cons_append, List.dropWhile_cons_of_neg (by simpa using hc)]
  have htake : (name.reverse ++ '/' :: dir.reverse).takeWhile (fun c => decide (c ≠ '/')) =
      name.reverse := by
    rw [List.takeWhile_append_of_pos (fun c hc => by simpa using h c (List.mem_reverse.mp hc))]
    simp
  unfold Base
  rw [if_neg (by simp)]
  simp only [hrev, hdrop, List.reverse_reverse, htake]
  rw [if_neg hne]

theorem TrimSuffix_append (s suf : GoString) : TrimSuffix (s ++ suf) suf = s := by
  unfold TrimSuffix HasSuffix
  rw [if_pos (List.isSuffixOf_iff_suffix.mpr (List.suffix_append s suf))]
  exact List.take_left' (by simp)

theorem archiveNameOf_no_slash (name ver : GoString) (hn : ∀ c ∈ name, c ≠ '/')
    (hv : ∀ c ∈ ver, c ≠ '/') : ∀ c ∈ archiveNameOf name ver, c ≠ '/' := by
  intro c hc
  unfold archiveNameOf at hc
  simp only [List.mem_append] at hc
  rcases hc with ((hc | hc) | hc) | hc
  · exact hn c hc
  · intro h
    subst h
    exact absurd hc (by decide)
  · exact hv c hc
  · intro h
    subst h
    exact absurd hc (by decide)

theorem getVersionFromArchiveName_of_Base (archiveName name ver : GoString) (hne : ver ≠ [])
    (hbase : Base archiveName = archiveNameOf name ver) :
    getVersionFromArchiveName archiveName name = (ver, none) := by
  unfold getVersionFromArchiveName
  simp only [hbase]
  have hpre : TrimPrefix (archiveNameOf name ver) (name ++ "-".toList) =
      ver ++ ".tar.gz".toList := by
    unfold archiveNameOf
    rw [List.append_assoc (name ++ "-".toList) ver, TrimPrefix_append]
  rw [hpre, TrimSuffix_append, if_neg hne]

/-! ## Properties of the empty actual version and of archive names -/

/-- C11 (as stated, refuted): the operands `9223372036854775808`, `-1` and `=-1.5` each
have a component that denotes a non-zero integer, yet against the empty actual version
`>=` holds for the first, `>` holds for the second and the third, and `<` fails for the
first and `<=` fails for the second.  The first is outside the range of `int` and
counts as zero, the second is negative, and `>` followed by `=-1.5` is the operator
`>=` with the operand `-1.5`. -/
theorem checkVersion_empty_actual_counterexample :
    checkVersion (">=".toList ++ "9223372036854775808".toList) [] = true ∧
    checkVersion ("<".toList ++ "9223372036854775808".toList) [] = false ∧
    checkVersion (">".toList ++ "-1".toList) [] = true ∧
    checkVersion ("<=".toList ++ "-1".toList) [] = false ∧
    checkVersion (">".toList ++ "=-1.5".toList) [] = true := by
  decide

/-- C11 (amended): when the first component of the operand `v` that `compareVersions`
reads as non-zero is positive (component `i` is above zero and the components before it
are zero, a component being read as zero when it is empty or `Atoi` rejects it), the
empty actual version does not satisfy `>=v` and satisfies `<=v`; when moreover `v` does
not begin with `=`, it does not satisfy `>v` and satisfies `<v`.  So `>1.12` does not
hold for the empty version. -/
theorem checkVersion_empty_actual (v : GoString) (i : Nat)
    (hzero : ∀ j, j < i → component (Split v '.') j = 0)
    (hpos : 0 < component (Split v '.') i) :
    checkVersion (">=".toList ++ v) [] = false ∧
    checkVersion ("<=".toList ++ v) [] = true ∧
    (HasPrefix v "=".toList = false →
      checkVersion (">".toList ++ v) [] = false ∧ checkVersion ("<".toList ++ v) [] = true) ∧
    checkVersion ">1.12".toList [] = false := by
  have hcmp := compareVersions_empty_left v i hzero hpos
  refine ⟨?_, ?_, ?_, by decide⟩
  · show checkVersion ('>' :: '=' :: v) [] = false
    rw [checkVersion_ge, hcmp]
    decide
  · show checkVersion ('<' :: '=' :: v) [] = true
    rw [checkVersion_le, hcmp]
    decide
  · intro hv
    have hnot : ∀ c : Char, HasPrefix (c :: v) [c, '='] = false := by
      intro c
      rw [← hv]
      simp [HasPrefix, String.toList]
    constructor
    · show checkVersion ('>' :: v) [] = false
      rw [checkVersion_gt v [] (hnot '>'), hcmp]
      decide
    · show checkVersion ('<' :: v) [] = true
      rw [checkVersion_lt v [] (hnot '<'), hcmp]
      decide

/-- C11 (amended), at the operand `beta.1`, whose first component is not a number and
whose second component is 1. -/
theorem checkVersion_empty_actual_witness :
    (∀ j, j < 1 → component (Split "beta.1".toList '.') j = 0) ∧
    0 < component (Split "beta.1".toList '.') 1 ∧
    HasPrefix "beta.1".toList "=".toList = false ∧
    checkVersion (">".toList ++ "beta.1".toList) [] = false ∧
    checkVersion ("<".toList ++ "beta.1".toList) [] = true :=
  ⟨by decide, by decide, by decide,
    (checkVersion_empty_actual "beta.1".toList 1 (by decide) (by decide)).2.2.1 (by decide)⟩

/-- C12: for a package name `n` and a non-empty version `v` without a path separator,
`getVersionFromArchiveName` applied with `n` to the archive name that `getArch` builds,
alone or after a directory path and a slash, returns `v` and no error; the path
`/packages/packet-1/packet-1-1.10.tar.gz` with `packet-1` yields `1.10`.  For every
archive name and package name an error is returned exactly when the base name without
the prefix `n-` and the suffix `.tar.gz` is empty. -/
theorem getVersionFromArchiveName_roundtrip (n v : GoString)
    (hn : ∀ c ∈ n, c ≠ '/') (hv : ∀ c ∈ v, c ≠ '/') (hne : v ≠ []) :
    getVersionFromArchiveName (archiveNameOf n v) n = (v, none) ∧
    (∀ dir : GoString,
      getVersionFromArchiveName (dir ++ "/".toList ++ archiveNameOf n v) n = (v, none)) ∧
    getVersionFromArchiveName "/packages/packet-1/packet-1-1.10.tar.gz".toList
      "packet-1".toList = ("1.10".toList, none) ∧
    (∀ archiveName packName : GoString,
      (getVersionFromArchiveName archiveName packName).2 ≠ none ↔
        TrimSuffix (TrimPrefix (Base archiveName) (packName ++ "-".toList))
          ".tar.gz".toList = []) := by
  have hname : archiveNameOf n v ≠ [] := by
    unfold archiveNameOf
    simp [String.toList]
  have hslash := archiveNameOf_no_slash n v hn hv
  refine ⟨?_, ?_, by decide, ?_⟩
  · exact getVersionFromArchiveName_of_Base _ n v hne (Base_of_no_slash _ hname hslash)
  · intro dir
    apply getVersionFromArchiveName_of_Base _ n v hne
    rw [List.append_assoc]
    exact Base_of_dir_slash dir _ hname hslash
  · intro archiveName packName
    unfold getVersionFromArchiveName
    simp only
    split_ifs with h
    · exact ⟨fun _ => h, fun _ => by simp⟩
    · exact ⟨fun hc => absurd rfl hc, fun hc => absurd hc h⟩

/-- C12, at the package name `packet-1` and the version `1.10`, after the directory path
`/packages/packet-1`. -/
theorem getVersionFromArchiveName_roundtrip_witness :
    getVersionFromArchiveName
      ("/packages/packet-1".toList ++ "/".toList ++
        archiveNameOf "packet-1".toList "1.10".toList)
      "packet-1".toList = ("1.10".toList, none) :=
  (getVersionFromArchiveName_roundtrip "packet-1".toList "1.10".toList
    (by decide) (by decide) (by decide)).2.1 "/packages/packet-1".toList

end Pacm
